import Mathlib

set_option maxHeartbeats 1000000

/-!
Shallow embedding of the Playfield repository's lock-free memory-reuse and
queueing core, and proofs of the specification claims about it.

Embedded sources:
  - src/cpp/09_objectPooling/objectPoolLockFree.h  (LockFreeObjectPool)
  - src/cpp/09_objectPooling/poolAllocator.h       (LockFreePool)
  - src/cpp/13_buggy_code_snippet/fixed_code_lock_free.cpp
      (LockFreeQueue with hazard pointers)

Modelling conventions: pointers become Nat addresses wrapped in Option
(none = nullptr); vector / array storage becomes a Lean List indexed by
address, with every element access bounds-checked so that an out-of-range
access (undefined behaviour in the C++) surfaces as an Option.none result;
size_t arithmetic is Nat arithmetic modulo 2 ^ 64 where wraparound matters.
Operations are given sequential-interleaving semantics: each function is the
straight-line execution of the C++ body by one thread with no interference,
so every compare-and-swap whose expected value was just loaded succeeds.
CAS retry loops are modelled with explicit fuel; running out of fuel yields
none, and the theorems show the fuel provided always suffices on the states
they cover.
-/

namespace Playfield

/-- Number of values representable in a size_t. -/
def UINT64 : Nat := 18446744073709551616

/-! ## Lock-free object pool (objectPoolLockFree.h)

A pool state is the arena's link structure plus the atomic head pointer:
`next` has one entry per arena node (the node's `next` field, none = nullptr)
and `head` is the atomic `head_` (none = nullptr).  The diagnostic-only members
`acquire_addresses_`, `release_addresses_` and the uninitialized
`exhaust_count_` (spec section 9 marks them best-effort diagnostics) carry
no link structure and are not modelled. -/

structure PoolState where
  next : List (Option Nat)
  head : Option Nat
deriving DecidableEq

/-- Linking loop of the LockFreeObjectPool constructor:
for (size_t i = 0; i < size - 1; ++i) storage_[i]->next = storage_[i+1].get().
`fuel` is the remaining iteration count (initially the loop bound computed in
size_t arithmetic) and `i` the loop variable.  Both vector accesses of an
iteration are bounds-checked; none signals an out-of-range access. -/
def ctorLink : List (Option Nat) → Nat → Nat → Option (List (Option Nat))
  | nx, 0, _ => some nx
  | nx, fuel+1, i =>
    if i < nx.length ∧ i + 1 < nx.length then
      ctorLink (nx.set i (some (i+1))) fuel (i+1)
    else none

/-- LockFreeObjectPool constructor.  `storage_(size)` with
`storage_[i] = make_unique<Node>()` yields `size` nodes whose next is
nullptr (List.replicate size none).  The loop bound `size - 1` is size_t
subtraction, so it wraps to 2 ^ 64 - 1 when size = 0.  After the loop the
code writes `storage_[size-1]->next = nullptr` and reads `storage_[0]`;
both are bounds-checked.  Returns none exactly when some vector access is
out of range (undefined behaviour in the C++). -/
def poolCtorAux (size bound : Nat) : Option PoolState :=
  match ctorLink (List.replicate size none) bound 0 with
  | none => none
  | some nx =>
    if bound < size ∧ 0 < size then
      some ⟨nx.set bound none, some 0⟩
    else none

/-- LockFreeObjectPool constructor proper: the loop bound and final index
`size - 1` is computed in size_t arithmetic, wrapping to 2 ^ 64 - 1 when
size = 0. -/
def poolCtor (size : Nat) : Option PoolState :=
  poolCtorAux size ((size + (UINT64 - 1)) % UINT64)

/-- LockFreeObjectPool::acquire, sequential semantics: load head; if it is
null return nullptr (pool exhausted); otherwise the CAS from the just-loaded
head to its next succeeds, and the popped node is returned. -/
def acquire (s : PoolState) : Option Nat × PoolState :=
  match s.head with
  | none => (none, s)
  | some a => (some a, ⟨s.next, s.next.getD a none⟩)

/-- LockFreeObjectPool::release, sequential semantics: node->next = oldHead,
then the CAS installing node as the new head succeeds. -/
def release (s : PoolState) (a : Nat) : PoolState :=
  ⟨s.next.set a s.head, some a⟩

/-- Set of nodes reachable by following next from an address: `chainFrom nx o l`
states that walking the links from pointer `o` visits exactly the addresses
in `l`, ending at a null link. -/
def chainFrom (nx : List (Option Nat)) : Option Nat → List Nat → Prop
  | none, [] => True
  | some a, b :: l => b = a ∧ a < nx.length ∧ chainFrom nx (nx.getD a none) l
  | _, _ => False

/-- One pool operation: an acquire, or the release of node `a` (reachable in
the C++ only through the shared_ptr deleter of a handle returned by acquire;
double release is an excluded caller-contract violation, spec section 7). -/
inductive PoolOp where
  | acq : PoolOp
  | rel : Nat → PoolOp
deriving DecidableEq

/-- Run a sequence of pool operations, tracking the ghost set `out` of
currently checked-out nodes.  A release is only legal for a checked-out
node (the caller contract); an illegal sequence yields none. -/
def runPool : PoolState → Finset Nat → List PoolOp → Option (PoolState × Finset Nat)
  | s, out, [] => some (s, out)
  | s, out, PoolOp.acq :: ops =>
    match acquire s with
    | (none, s1) => runPool s1 out ops
    | (some a, s1) => runPool s1 (insert a out) ops
  | s, out, PoolOp.rel a :: ops =>
    if a ∈ out then runPool (release s a) (out.erase a) ops else none

/-- The pool partition invariant: the nodes reachable from the free-list
head and the checked-out set are disjoint and together are exactly the
arena. -/
def PoolInvP (s : PoolState) (out : Finset Nat) : Prop :=
  ∃ l, chainFrom s.next s.head l ∧ l.Nodup ∧ Disjoint out l.toFinset ∧
    out ∪ l.toFinset = Finset.range s.next.length

/-! ## Lock-free block allocator (poolAllocator.h) -/

/-- State of a LockFreePool: the per-block link words and the atomic head. -/
structure AllocState where
  next : List (Option Nat)
  head : Option Nat
deriving DecidableEq

/-- LockFreePool::allocate, sequential semantics: while head is non-null the
CAS from the just-loaded head to its next succeeds and the block is
returned; when the free list is exhausted the loop exits and the code
throws std::bad_alloc, modelled as Except.error. -/
def allocate (s : AllocState) : Except Unit (Nat × AllocState) :=
  match s.head with
  | some a => Except.ok (a, ⟨s.next, s.next.getD a none⟩)
  | none => Except.error ()

/-- LockFreePool::deallocate, sequential semantics: node->next = oldHead,
then the CAS installing the block as the new head succeeds. -/
def deallocate (s : AllocState) (a : Nat) : AllocState :=
  ⟨s.next.set a s.head, some a⟩

/-! ## Lock-free queue with hazard pointers (fixed_code_lock_free.cpp)

Queue nodes are individually heap-allocated, so the heap is modelled as an
address-indexed list of cells; a cell is some (value, next) while the node
is allocated and none once it has been deleted (or never existed).  The
global hazard_pointers table is the hp field (MAX_THREADS slots of
atomic<void*>, zero-initialized to nullptr); get_hazard_index's per-thread
slot is the tid argument of dequeue, with the code's assert idx < MAX_THREADS
appearing as a side condition. -/

/-- MAX_THREADS of fixed_code_lock_free.cpp. -/
def MAX_THREADS : Nat := 16

/-- Address-indexed store of queue nodes: some (value, next) if allocated,
none if freed or never allocated. -/
abbrev Heap (α : Type) : Type := List (Option (α × Option Nat))

/-- Dereference a node: value and next field, or none when the access is to
a freed or never-allocated address (use-after-free / wild pointer, undefined
behaviour in the C++). -/
def readCell {α} (h : Heap α) (a : Nat) : Option (α × Option Nat) :=
  List.getD h a none

/-- Store to a node's next field (no-op on an unallocated address; only ever
used on allocated ones in the theorems). -/
def setNext {α} (h : Heap α) (a : Nat) (nx : Option Nat) : Heap α :=
  match readCell h a with
  | some c => List.set h a (some (c.1, nx))
  | none => h

/-- Queue state: the node heap, the atomic head and tail pointers, and the
global hazard-pointer table. -/
structure QState (α : Type) where
  heap : Heap α
  head : Option Nat
  tail : Option Nat
  hp : List (Option Nat)
deriving DecidableEq

/-- LockFreeQueue constructor: allocate a dummy node holding T() with null
next; head and tail both point at it; the hazard table starts all-null. -/
def qInit (α : Type) [Inhabited α] : QState α :=
  ⟨[some (default, none)], some 0, some 0, List.replicate MAX_THREADS none⟩

/-- LockFreeQueue::retire_node: scan all MAX_THREADS hazard slots; if any
slot holds this node's address, defer (yield and return — the node is not
recorded anywhere); otherwise delete the node. -/
def retire_node {α} (s : QState α) (node : Nat) : QState α :=
  if s.hp.any (fun p => p == some node) then s
  else ⟨s.heap.set node none, s.head, s.tail, s.hp⟩

/-- Body of LockFreeQueue::enqueue's retry loop, sequential semantics, for
the already-allocated new node `a`: load tail, load tail->next (none if the
tail pointer is null or dangling); the re-check last == tail.load() always
passes sequentially; if next is null the CAS linking `a` as tail->next
succeeds and so does the best-effort tail advance; otherwise help advance
tail and retry.  `fuel` bounds the number of loop iterations. -/
def enqLoop {α} : Nat → QState α → Nat → Option (QState α)
  | 0, _, _ => none
  | fuel+1, s, a =>
    match s.tail with
    | none => none
    | some last =>
      match readCell s.heap last with
      | none => none
      | some c =>
        match c.2 with
        | none => some ⟨setNext s.heap last (some a), s.head, some a, s.hp⟩
        | some n => enqLoop fuel ⟨s.heap, s.head, some n, s.hp⟩ a

/-- LockFreeQueue::enqueue: heap-allocate a node for the value (fresh
address = current heap size) and run the linking loop. -/
def enqueue {α} (s : QState α) (v : α) : Option (QState α) :=
  enqLoop (s.heap.length + 1) ⟨s.heap ++ [some (v, none)], s.head, s.tail, s.hp⟩
    s.heap.length

/-- Body of LockFreeQueue::dequeue's retry loop, sequential semantics, for
the calling thread's hazard slot `tid`: load head into first, publish first
in the hazard slot, load tail and first->next; (the re-read of head equals
first in the sequential model;) if first == tail: return false on null next
(note: without clearing the hazard slot), else help advance tail and retry;
otherwise read next->value if a result pointer was passed and next is
non-null, CAS head to next (succeeds sequentially), retire the old head and
return true (again without clearing the hazard slot). -/
def deqLoop {α} : Nat → QState α → Nat → Option ((Bool × Option α) × QState α)
  | 0, _, _ => none
  | fuel+1, s, tid =>
    match s.head with
    | none => none
    | some first =>
      match readCell s.heap first with
      | none => none
      | some c =>
        if s.tail = some first then
          match c.2 with
          | none =>
            some ((false, none), ⟨s.heap, s.head, s.tail, s.hp.set tid (some first)⟩)
          | some n =>
            deqLoop fuel ⟨s.heap, s.head, some n, s.hp.set tid (some first)⟩ tid
        else
          match c.2 with
          | none =>
            some ((true, none),
              retire_node ⟨s.heap, none, s.tail, s.hp.set tid (some first)⟩ first)
          | some n =>
            match readCell s.heap n with
            | none => none
            | some d =>
              some ((true, some d.1),
                retire_node ⟨s.heap, some n, s.tail, s.hp.set tid (some first)⟩ first)

/-- LockFreeQueue::dequeue for the thread with hazard index `tid`, called
with a result out-pointer (as in the repository's main). -/
def dequeue {α} (s : QState α) (tid : Nat) : Option ((Bool × Option α) × QState α) :=
  deqLoop (s.heap.length + 1) s tid

/-- One queue operation: an enqueue of a value, or a dequeue by the thread
with hazard index tid. -/
inductive QOp (α : Type) where
  | enq : α → QOp α
  | deq : Nat → QOp α

/-- Run a sequence of queue operations from a state.  A dequeuing thread's
hazard index satisfies the code's assert idx < MAX_THREADS. -/
def runQ {α} [Inhabited α] : QState α → List (QOp α) → Option (QState α)
  | s, [] => some s
  | s, QOp.enq v :: ops =>
    match enqueue s v with
    | none => none
    | some s1 => runQ s1 ops
  | s, QOp.deq tid :: ops =>
    if tid < MAX_THREADS then
      match dequeue s tid with
      | none => none
      | some r => runQ r.2 ops
    else none

/-- Walking the queue's links from pointer `o` visits exactly the allocated
nodes listed in `l`, ending at a null next link. -/
def qchain {α} (h : Heap α) : Option Nat → List Nat → Prop
  | none, [] => True
  | some a, b :: l => b = a ∧ ∃ c, readCell h a = some c ∧ qchain h c.2 l
  | _, _ => False

/-- Values stored in the listed nodes (in order). -/
def chainVals {α} (h : Heap α) (l : List Nat) : List α :=
  l.filterMap (fun a => (readCell h a).map (fun c => c.1))

/-- Structural invariant of the queue in sequential executions: the node
chain from head is `l` (dummy first), it is duplicate-free and non-empty,
head points at its first node and tail at its last, the logical contents
(the values of all nodes after the dummy) are `vs`, and the hazard table
has its fixed MAX_THREADS size. -/
def QInv {α} (s : QState α) (l : List Nat) (vs : List α) : Prop :=
  qchain s.heap s.head l ∧ l.Nodup ∧ l ≠ [] ∧
  s.head = l.head? ∧ s.tail = l.getLast? ∧
  chainVals s.heap l.tail = vs ∧ s.hp.length = MAX_THREADS

/-- Every heap cell below the allocation frontier is still allocated: no
node has ever been physically freed. -/
def AllAlloc {α} (h : Heap α) : Prop :=
  ∀ a, a < h.length → List.getD h a none ≠ none

/-- Enqueue each value of the list in order (one producer). -/
def enqList {α} : QState α → List α → Option (QState α)
  | s, [] => some s
  | s, v :: vs =>
    match enqueue s v with
    | none => none
    | some s1 => enqList s1 vs

/-- Perform k dequeues by the thread with hazard index 0, collecting the
(bool result, written value) pairs in order. -/
def deqN {α} : QState α → Nat → Option (List (Bool × Option α) × QState α)
  | s, 0 => some ([], s)
  | s, k+1 =>
    match dequeue s 0 with
    | none => none
    | some r =>
      match deqN r.2 k with
      | none => none
      | some q => some (r.1 :: q.1, q.2)

/-- Single-producer single-consumer scenario: enqueue all of vs into a fresh
queue, then dequeue vs.length + 1 times, returning the dequeue results. -/
def runFifo {α} [Inhabited α] (vs : List α) : Option (List (Bool × Option α)) :=
  match enqList (qInit α) vs with
  | none => none
  | some s => (deqN s (vs.length + 1)).map (fun q => q.1)

/-! ### List access helper lemmas -/

/-- Reading the just-written position of a set. -/
theorem getD_set_self {β : Type} (l : List β) (i : Nat) (a d : β) (h : i < l.length) :
    (l.set i a).getD i d = a := by
  rw [List.getD_eq_getElem?_getD, List.getElem?_set_self h]
  rfl

/-- Reading another position of a set. -/
theorem getD_set_ne {β : Type} (l : List β) (i j : Nat) (a d : β) (h : i ≠ j) :
    (l.set i a).getD j d = l.getD j d := by
  rw [List.getD_eq_getElem?_getD, List.getElem?_set_ne h, ← List.getD_eq_getElem?_getD]

/-- Reading an in-range position of an append. -/
theorem getD_append_lt {β : Type} (l l2 : List β) (j : Nat) (d : β) (h : j < l.length) :
    (l ++ l2).getD j d = l.getD j d := by
  rw [List.getD_eq_getElem?_getD, List.getElem?_append, if_pos h,
    ← List.getD_eq_getElem?_getD]

/-- Every read of a replicate-none list yields none. -/
theorem getD_replicate_none (n j : Nat) :
    (List.replicate n (none : Option Nat)).getD j none = none := by
  rw [List.getD_eq_getElem?_getD, List.getElem?_replicate]
  split <;> rfl

/-! ### Pool free-list invariant -/

/-- Link-chain membership only inspects the next entries of the listed
nodes, so it transfers to any link table agreeing on them. -/
theorem chainFrom_congr (l : List Nat) (nx nx2 : List (Option Nat)) (o : Option Nat)
    (hlen : nx2.length = nx.length)
    (hsame : ∀ b ∈ l, nx2.getD b none = nx.getD b none)
    (h : chainFrom nx o l) : chainFrom nx2 o l := by
  induction l generalizing o with
  | nil =>
    cases o with
    | none => trivial
    | some a => simp [chainFrom] at h
  | cons b l2 ih =>
    cases o with
    | none => simp [chainFrom] at h
    | some a =>
      obtain ⟨hb, hlt, hrest⟩ := h
      subst hb
      refine ⟨rfl, by omega, ?_⟩
      rw [hsame b (by simp)]
      exact ih (nx.getD b none) (fun c hc => hsame c (List.mem_cons_of_mem _ hc)) hrest

/-- Effect of the constructor's linking loop when every access is in range:
positions i .. i+fuel-1 now link to their successors, all else unchanged. -/
theorem ctorLink_spec (fuel : Nat) : ∀ (i : Nat) (nx : List (Option Nat)),
    i + fuel < nx.length →
    ∃ nx2, ctorLink nx fuel i = some nx2 ∧ nx2.length = nx.length ∧
      ∀ j, nx2.getD j none =
        if i ≤ j ∧ j < i + fuel then some (j+1) else nx.getD j none := by
  induction fuel with
  | zero =>
    intro i nx _
    exact ⟨nx, rfl, rfl, fun j => by rw [if_neg (by omega)]⟩
  | succ fuel ih =>
    intro i nx h
    have h1 : i < nx.length := by omega
    have h2 : i + 1 < nx.length := by omega
    obtain ⟨nx2, heq, hlen, hget⟩ :=
      ih (i+1) (nx.set i (some (i+1))) (by rw [List.length_set]; omega)
    refine ⟨nx2, ?_, by rw [hlen, List.length_set], ?_⟩
    · simp only [ctorLink]
      rw [if_pos ⟨h1, h2⟩]
      exact heq
    · intro j
      by_cases hj : j = i
      · subst hj
        rw [hget j, if_neg (by omega), getD_set_self _ _ _ _ h1, if_pos (by omega)]
      · rw [hget j, getD_set_ne _ _ _ _ _ (fun he => hj he.symm)]
        by_cases hc : i + 1 ≤ j ∧ j < i + 1 + fuel
        · rw [if_pos hc, if_pos (by omega)]
        · rw [if_neg hc, if_neg (by omega)]

/-- A link table that maps each of i .. i+k-2 to its successor and ends with
a null link at i+k-1 carries the chain i, i+1, ..., i+k-1. -/
theorem chainFrom_range (k : Nat) : ∀ (i : Nat) (nx : List (Option Nat)),
    i + k ≤ nx.length →
    (∀ j, i ≤ j → j + 1 < i + k → nx.getD j none = some (j+1)) →
    nx.getD (i + k - 1) none = none →
    0 < k →
    chainFrom nx (some i) (List.range' i k) := by
  induction k with
  | zero => intro i nx _ _ _ hk; omega
  | succ k ih =>
    intro i nx hlen hsucc hlast _
    rw [List.range'_succ]
    refine ⟨rfl, by omega, ?_⟩
    cases k with
    | zero =>
      have h0 : i + (0 + 1) - 1 = i := by omega
      rw [h0] at hlast
      rw [hlast]
      simp [chainFrom]
    | succ k2 =>
      have hv : nx.getD i none = some (i+1) := hsucc i (le_refl i) (by omega)
      rw [hv]
      exact ih (i+1) nx (by omega)
        (fun j hj1 hj2 => hsucc j (by omega) (by omega))
        (by have he : i + 1 + (k2 + 1) - 1 = i + (k2 + 1 + 1) - 1 := by omega
            rw [he]; exact hlast)
        (by omega)

/-- A freshly constructed pool (n a size_t value) satisfies the partition
invariant with nothing checked out, and its arena has exactly n nodes. -/
theorem poolCtor_inv (n : Nat) (s0 : PoolState) (hn : n < UINT64)
    (h : poolCtor n = some s0) : s0.next.length = n ∧ PoolInvP s0 ∅ := by
  rcases Nat.eq_zero_or_pos n with hz | hpos
  · subst hz
    rw [(by decide : poolCtor 0 = none)] at h
    cases h
  · have hb : (n + (UINT64 - 1)) % UINT64 = n - 1 := by
      unfold UINT64 at hn ⊢
      omega
    obtain ⟨nx2, heq, hlen, hget⟩ :=
      ctorLink_spec (n-1) 0 (List.replicate n none)
        (by rw [List.length_replicate]; omega)
    rw [poolCtor, hb] at h
    simp only [poolCtorAux, heq] at h
    rw [if_pos ⟨(by omega : n - 1 < n), hpos⟩] at h
    obtain rfl := Option.some.inj h
    rw [List.length_replicate] at hlen
    have hlen2 : (nx2.set (n-1) none).length = n := by rw [List.length_set, hlen]
    have hget2 : ∀ j, (nx2.set (n-1) none).getD j none =
        if j + 1 < n then some (j+1) else none := by
      intro j
      by_cases hj : j = n - 1
      · subst hj
        rw [getD_set_self _ _ _ _ (by omega), if_neg (by omega)]
      · rw [getD_set_ne _ _ _ _ _ (fun he => hj he.symm), hget j, getD_replicate_none]
        by_cases hc : 0 ≤ j ∧ j < 0 + (n-1)
        · rw [if_pos hc, if_pos (by omega)]
        · rw [if_neg hc, if_neg (by omega)]
    refine ⟨hlen2, List.range n, ?_, List.nodup_range n, by simp, ?_⟩
    · show chainFrom (nx2.set (n-1) none) (some 0) (List.range n)
      rw [List.range_eq_range']
      exact chainFrom_range n 0 _ (by omega)
        (fun j _ hj2 => by rw [hget2 j, if_pos (by omega)])
        (by rw [hget2, if_neg (by omega)])
        hpos
    · show ∅ ∪ (List.range n).toFinset = Finset.range (nx2.set (n-1) none).length
      rw [hlen2]
      ext x
      simp

/-- Acquire of node a (the current head) preserves the partition invariant,
moving a from the free chain to the checked-out set. -/
theorem pool_inv_acquire (s : PoolState) (out : Finset Nat) (a : Nat)
    (h : PoolInvP s out) (hh : s.head = some a) :
    PoolInvP ⟨s.next, s.next.getD a none⟩ (insert a out) := by
  obtain ⟨l, hc, hnd, hdisj, huni⟩ := h
  rw [hh] at hc
  cases l with
  | nil => simp [chainFrom] at hc
  | cons b l2 =>
    obtain ⟨hb, hlt, hrest⟩ := hc
    subst hb
    refine ⟨l2, hrest, (List.nodup_cons.mp hnd).2, ?_, ?_⟩
    · rw [Finset.disjoint_insert_left]
      refine ⟨?_, Finset.disjoint_of_subset_right ?_ hdisj⟩
      · rw [List.mem_toFinset]
        exact (List.nodup_cons.mp hnd).1
      · rw [List.toFinset_cons]
        exact Finset.subset_insert _ _
    · rw [Finset.insert_union, ← Finset.union_insert, ← List.toFinset_cons]
      exact huni

/-- Release of a checked-out node a preserves the partition invariant,
moving a from the checked-out set back to the head of the free chain. -/
theorem pool_inv_release (s : PoolState) (out : Finset Nat) (a : Nat)
    (h : PoolInvP s out) (ha : a ∈ out) :
    PoolInvP (release s a) (out.erase a) := by
  obtain ⟨l, hc, hnd, hdisj, huni⟩ := h
  have hal : a ∉ l := fun hmem =>
    (Finset.disjoint_left.mp hdisj ha) (List.mem_toFinset.mpr hmem)
  have haN : a < s.next.length := by
    have : a ∈ Finset.range s.next.length := by
      rw [← huni]
      exact Finset.mem_union_left _ ha
    simpa using this
  refine ⟨a :: l, ?_, List.nodup_cons.mpr ⟨hal, hnd⟩, ?_, ?_⟩
  · refine ⟨rfl, ?_, ?_⟩
    · show a < (s.next.set a s.head).length
      rw [List.length_set]
      exact haN
    · show chainFrom (s.next.set a s.head) ((s.next.set a s.head).getD a none) l
      rw [getD_set_self _ _ _ _ haN]
      exact chainFrom_congr l s.next _ s.head (by rw [List.length_set])
        (fun b hb => getD_set_ne _ _ _ _ _ (fun he => hal (he ▸ hb))) hc
  · rw [List.toFinset_cons, Finset.disjoint_left]
    intro x hx hmem
    obtain ⟨hxa, hxout⟩ := Finset.mem_erase.mp hx
    rcases Finset.mem_insert.mp hmem with h1 | h1
    · exact hxa h1
    · exact (Finset.disjoint_left.mp hdisj hxout) h1
  · show out.erase a ∪ (a :: l).toFinset = Finset.range (s.next.set a s.head).length
    rw [List.toFinset_cons, Finset.union_insert, ← Finset.insert_union,
      Finset.insert_erase ha, List.length_set]
    exact huni

/-- Unfolding equation for runPool: acquire on an exhausted pool. -/
theorem runPool_acq_none (s : PoolState) (out : Finset Nat) (ops : List PoolOp)
    (hh : s.head = none) :
    runPool s out (PoolOp.acq :: ops) = runPool s out ops := by
  simp only [runPool]
  rw [show acquire s = (none, s) from by simp [acquire, hh]]

/-- Unfolding equation for runPool: a successful acquire. -/
theorem runPool_acq_some (s : PoolState) (out : Finset Nat) (ops : List PoolOp)
    (a : Nat) (hh : s.head = some a) :
    runPool s out (PoolOp.acq :: ops) =
      runPool ⟨s.next, s.next.getD a none⟩ (insert a out) ops := by
  simp only [runPool]
  rw [show acquire s = (some a, ⟨s.next, s.next.getD a none⟩) from by simp [acquire, hh]]

/-- Unfolding equation for runPool: a legal release. -/
theorem runPool_rel_mem (s : PoolState) (out : Finset Nat) (ops : List PoolOp)
    (a : Nat) (ha : a ∈ out) :
    runPool s out (PoolOp.rel a :: ops) = runPool (release s a) (out.erase a) ops := by
  simp only [runPool]
  rw [if_pos ha]

/-- Running any legal operation sequence preserves the partition invariant
and the arena size. -/
theorem runPool_inv (ops : List PoolOp) : ∀ (s : PoolState) (out : Finset Nat)
    (s2 : PoolState) (out2 : Finset Nat), PoolInvP s out →
    runPool s out ops = some (s2, out2) →
    PoolInvP s2 out2 ∧ s2.next.length = s.next.length := by
  induction ops with
  | nil =>
    intro s out s2 out2 h hr
    simp only [runPool, Option.some.injEq, Prod.mk.injEq] at hr
    obtain ⟨rfl, rfl⟩ := hr
    exact ⟨h, rfl⟩
  | cons op ops ih =>
    intro s out s2 out2 h hr
    cases op with
    | acq =>
      cases hh : s.head with
      | none =>
        rw [runPool_acq_none s out ops hh] at hr
        exact ih s out s2 out2 h hr
      | some a =>
        rw [runPool_acq_some s out ops a hh] at hr
        have hrec := ih ⟨s.next, s.next.getD a none⟩ (insert a out) s2 out2
          (pool_inv_acquire s out a h hh) hr
        exact ⟨hrec.1, hrec.2⟩
    | rel a =>
      by_cases ha : a ∈ out
      · rw [runPool_rel_mem s out ops a ha] at hr
        have hrec := ih _ _ s2 out2 (pool_inv_release s out a h ha) hr
        refine ⟨hrec.1, ?_⟩
        rw [hrec.2]
        show (s.next.set a s.head).length = s.next.length
        rw [List.length_set]
      · simp only [runPool] at hr
        rw [if_neg ha] at hr
        cases hr

/-! ## Claim C5 -/

/-- C5: for every legal sequence of acquire and release operations on a
LockFreeObjectPool of capacity n, at every point the checked-out set and
the set of nodes reachable by following next from the free-list head are
disjoint, and together they are exactly the n arena nodes. -/
theorem pool_partition_invariant (n : Nat) (s0 s2 : PoolState) (out2 : Finset Nat)
    (ops : List PoolOp) (hn : n < UINT64) (h0 : poolCtor n = some s0)
    (hrun : runPool s0 ∅ ops = some (s2, out2)) :
    ∃ l, chainFrom s2.next s2.head l ∧ l.Nodup ∧
      Disjoint out2 l.toFinset ∧ out2 ∪ l.toFinset = Finset.range n := by
  obtain ⟨hlen0, hinv0⟩ := poolCtor_inv n s0 hn h0
  obtain ⟨hinv2, hlen2⟩ := runPool_inv ops s0 ∅ s2 out2 hinv0 hrun
  obtain ⟨l, h1, h2, h3, h4⟩ := hinv2
  exact ⟨l, h1, h2, h3, by rw [h4, hlen2, hlen0]⟩

/-- Witness for the C5 theorem: a capacity-2 pool after one acquire — node 0
is checked out while node 1 is the whole free chain. -/
theorem pool_partition_invariant_w :
    2 < UINT64 ∧ poolCtor 2 = some ⟨[some 1, none], some 0⟩ ∧
      runPool ⟨[some 1, none], some 0⟩ ∅ [PoolOp.acq] =
        some (⟨[some 1, none], some 1⟩, {0}) ∧
      (∃ l, chainFrom (⟨[some 1, none], some 1⟩ : PoolState).next
          (⟨[some 1, none], some 1⟩ : PoolState).head l ∧ l.Nodup ∧
        Disjoint ({0} : Finset Nat) l.toFinset ∧
        ({0} : Finset Nat) ∪ l.toFinset = Finset.range 2) :=
  ⟨by decide, by decide, by decide,
   pool_partition_invariant 2 ⟨[some 1, none], some 0⟩ ⟨[some 1, none], some 1⟩
     {0} [PoolOp.acq] (by decide) (by decide) (by decide)⟩

/-! ## Claims C7, C8, C10 -/

/-- C7: LockFreePool::allocate returns a raw block whenever the free list is
non-empty, and on an exhausted free list it signals out-of-memory
exceptionally — it throws std::bad_alloc (Except.error in the embedding)
rather than returning a sentinel value. -/
theorem allocate_exhaustion_fatal (s : AllocState) :
    (∀ a, s.head = some a →
      allocate s = Except.ok (a, ⟨s.next, s.next.getD a none⟩)) ∧
    (s.head = none → allocate s = Except.error ()) := by
  constructor
  · intro a h
    simp [allocate, h]
  · intro h
    simp [allocate, h]

/-- Witness for the C7 theorem at concrete states: a one-block free list
yields the block, the empty free list throws. -/
theorem allocate_exhaustion_fatal_w :
    allocate ⟨[none], some 0⟩ = Except.ok (0, ⟨[none], none⟩) ∧
    allocate ⟨[], none⟩ = Except.error () :=
  ⟨(allocate_exhaustion_fatal ⟨[none], some 0⟩).1 0 rfl,
   (allocate_exhaustion_fatal ⟨[], none⟩).2 rfl⟩

/-- C8 failing input: with capacity 0 the LockFreeObjectPool constructor
computes the size_t loop bound size - 1 = 2 ^ 64 - 1, and its first loop
iteration already indexes storage_[0] on an empty vector — an out-of-range
access (undefined behaviour), modelled as the checked constructor returning
none.  So the constructor does not fail only on out-of-memory.  (For
positive capacities the construction is in range: e.g. capacity 3 links the
three nodes 0 -> 1 -> 2 into one free list headed at node 0.) -/
theorem poolCtor_zero_out_of_range :
    poolCtor 0 = none ∧ poolCtor 3 = some ⟨[some 1, some 2, none], some 0⟩ := by
  constructor
  · decide
  · decide

/-- C10: the pool free list is LIFO — release installs the released node as
the new free-list head, acquire pops the current head, and an acquire
performed immediately after a release returns exactly the just-released
node. -/
theorem pool_release_acquire_lifo (s : PoolState) (a : Nat) :
    (release s a).head = some a ∧
    (acquire (release s a)).1 = some a ∧
    (acquire s).1 = s.head := by
  refine ⟨rfl, rfl, ?_⟩
  cases h : s.head <;> simp [acquire, h]

/-! ## Claims C1 and C3 -/

/-- C1: the reclamation step never physically frees a retired node while any
hazard slot holds that node's address — whenever some slot of the hazard
table equals the node, retire_node leaves the state (in particular the
heap) unchanged: the free is deferred, not performed. -/
theorem retire_node_never_frees_hazarded {α} (s : QState α) (node : Nat)
    (h : some node ∈ s.hp) : retire_node s node = s := by
  have hany : s.hp.any (fun p => p == some node) = true :=
    List.any_eq_true.mpr ⟨some node, h, by simp⟩
  simp [retire_node, hany]

/-- Witness for the C1 theorem: a state whose hazard table holds address 3
in its only slot; retiring node 3 changes nothing. -/
theorem retire_node_never_frees_hazarded_w :
    some 3 ∈ ([some 3] : List (Option Nat)) ∧
      retire_node (⟨[some (0, none)], some 0, some 0, [some 3]⟩ : QState Nat) 3 =
        ⟨[some (0, none)], some 0, some 0, [some 3]⟩ :=
  ⟨by decide, retire_node_never_frees_hazarded _ 3 (by decide)⟩

/-- C3 evaluated at the failing input: dequeue on a fresh empty queue (by
the thread with hazard index 0) returns the Empty result, but the thread's
hazard slot still holds the published dummy-node address 0 — no return path
of dequeue ever clears the slot, contradicting the claim. -/
theorem dequeue_leaves_hazard_slot_set :
    dequeue (qInit Nat) 0 =
      some ((false, none),
        ⟨[some (0, none)], some 0, some 0,
          (List.replicate MAX_THREADS (none : Option Nat)).set 0 (some 0)⟩) ∧
    List.getD ((List.replicate MAX_THREADS (none : Option Nat)).set 0 (some 0)) 0 none
      = some 0 := by
  constructor
  · decide
  · decide

/-! ### Heap access lemmas -/

/-- A successful node read implies the address is below the allocation
frontier. -/
theorem readCell_lt_length {α} (h : Heap α) (a : Nat) (c : α × Option Nat)
    (hr : readCell h a = some c) : a < h.length := by
  by_contra hcon
  push_neg at hcon
  rw [readCell, List.getD_eq_getElem?_getD, List.getElem?_eq_none hcon] at hr
  simp at hr

/-- Reads below the old frontier are unaffected by an allocation. -/
theorem readCell_append_lt {α} (h : Heap α) (c : Option (α × Option Nat)) (a : Nat)
    (ha : a < h.length) : readCell (h ++ [c]) a = readCell h a :=
  getD_append_lt h [c] a none ha

/-- Reading the freshly allocated cell. -/
theorem readCell_append_self {α} (h : Heap α) (c : Option (α × Option Nat)) :
    readCell (h ++ [c]) h.length = c := by
  rw [readCell, List.getD_eq_getElem?_getD, List.getElem?_concat_length]
  rfl

/-- Writing a node's next field, read back at the same address. -/
theorem readCell_setNext_self {α} (h : Heap α) (a : Nat) (c : α × Option Nat)
    (nx : Option Nat) (hr : readCell h a = some c) :
    readCell (setNext h a nx) a = some (c.1, nx) := by
  have ha := readCell_lt_length h a c hr
  simp only [readCell] at hr ⊢
  simp only [setNext, readCell, hr]
  exact getD_set_self _ _ _ _ ha

/-- Writing a node's next field leaves other addresses unchanged. -/
theorem readCell_setNext_ne {α} (h : Heap α) (a b : Nat) (nx : Option Nat)
    (hne : a ≠ b) : readCell (setNext h a nx) b = readCell h b := by
  cases hc : readCell h a with
  | none =>
    simp only [readCell] at hc
    simp only [setNext, readCell, hc]
  | some c =>
    simp only [readCell] at hc
    simp only [setNext, readCell, hc]
    exact getD_set_ne _ _ _ _ _ hne

/-- Writing a next field never changes any stored value. -/
theorem readCell_setNext_fst {α} (h : Heap α) (a b : Nat) (nx : Option Nat) :
    (readCell (setNext h a nx) b).map Prod.fst = (readCell h b).map Prod.fst := by
  by_cases hb : a = b
  · subst hb
    cases hc : readCell h a with
    | none =>
      simp only [readCell] at hc
      simp only [setNext, readCell, hc]
    | some c =>
      simp [readCell_setNext_self h a c nx hc, hc]
  · rw [readCell_setNext_ne h a b nx hb]

/-- Writing a next field preserves the allocation frontier. -/
theorem length_setNext {α} (h : Heap α) (a : Nat) (nx : Option Nat) :
    (setNext h a nx).length = h.length := by
  cases hc : readCell h a with
  | none =>
    simp only [readCell] at hc
    simp only [setNext, readCell, hc]
  | some c =>
    simp only [readCell] at hc
    simp only [setNext, readCell, hc]
    exact List.length_set h a _

/-! ### Chain lemmas -/

/-- A chain only inspects the cells of its own nodes, so it transfers to any
heap agreeing on them. -/
theorem qchain_congr {α} (l : List Nat) (h h2 : Heap α) (o : Option Nat)
    (hsame : ∀ b ∈ l, readCell h2 b = readCell h b)
    (hch : qchain h o l) : qchain h2 o l := by
  induction l generalizing o with
  | nil =>
    cases o with
    | none => trivial
    | some a => simp [qchain] at hch
  | cons b l2 ih =>
    cases o with
    | none => simp [qchain] at hch
    | some a =>
      obtain ⟨hb, c, hc, hrest⟩ := hch
      subst hb
      exact ⟨rfl, c, by rw [hsame b (by simp), hc],
        ih c.2 (fun x hx => hsame x (List.mem_cons_of_mem _ hx)) hrest⟩

/-- Every node of a chain is allocated. -/
theorem qchain_mem_alloc {α} (l : List Nat) (h : Heap α) (o : Option Nat)
    (hch : qchain h o l) : ∀ b ∈ l, ∃ c, readCell h b = some c := by
  induction l generalizing o with
  | nil => intro b hb; cases hb
  | cons x l2 ih =>
    cases o with
    | none => simp [qchain] at hch
    | some a =>
      obtain ⟨hx, c, hc, hrest⟩ := hch
      subst hx
      intro b hb
      rcases List.mem_cons.mp hb with rfl | hb2
      · exact ⟨c, hc⟩
      · exact ih c.2 hrest b hb2

/-- The last node of a chain has a null next link. -/
theorem qchain_getLast_none {α} (l : List Nat) (h : Heap α) (o : Option Nat)
    (hch : qchain h o l) : ∀ last, l.getLast? = some last →
    ∃ v0, readCell h last = some (v0, none) := by
  induction l generalizing o with
  | nil => intro last hlast; cases hlast
  | cons x l2 ih =>
    cases o with
    | none => simp [qchain] at hch
    | some a =>
      obtain ⟨hx, c, hc, hrest⟩ := hch
      subst hx
      intro last hlast
      cases l2 with
      | nil =>
        rw [List.getLast?_singleton] at hlast
        obtain rfl := Option.some.inj hlast
        cases c2 : c.2 with
        | none => exact ⟨c.1, by rw [hc, ← c2]⟩
        | some y => rw [c2] at hrest; simp [qchain] at hrest
      | cons b l3 =>
        rw [List.getLast?_cons_cons] at hlast
        exact ih c.2 hrest last hlast

/-- Extending a chain by one fresh node a linked after the old last node. -/
theorem qchain_snoc {α} (h h2 : Heap α) (a last : Nat)
    (hlast2 : ∃ v, readCell h2 last = some (v, some a))
    (ha : ∃ v, readCell h2 a = some (v, none)) :
    ∀ (l : List Nat) (o : Option Nat),
    qchain h o l → l.Nodup → l.getLast? = some last → a ∉ l →
    (∀ b ∈ l, b ≠ last → readCell h2 b = readCell h b) →
    qchain h2 o (l ++ [a]) := by
  intro l
  induction l with
  | nil => intro o _ _ hlast; cases hlast
  | cons x l2 ih =>
    intro o hch hnd hlast hnl hsame
    cases o with
    | none => simp [qchain] at hch
    | some x2 =>
      obtain ⟨hx, c, hc, hrest⟩ := hch
      subst hx
      cases l2 with
      | nil =>
        rw [List.getLast?_singleton] at hlast
        obtain rfl := Option.some.inj hlast
        obtain ⟨v1, hv1⟩ := hlast2
        obtain ⟨v2, hv2⟩ := ha
        exact ⟨rfl, (v1, some a), hv1, rfl, (v2, none), hv2, trivial⟩
      | cons b l3 =>
        rw [List.getLast?_cons_cons] at hlast
        have hmem : last ∈ b :: l3 := List.mem_of_getLast?_eq_some hlast
        have hxlast : x ≠ last := fun he =>
          (List.nodup_cons.mp hnd).1 (he ▸ hmem)
        have hcx : c.2 = some b := by
          cases c2 : c.2 with
          | none => rw [c2] at hrest; simp [qchain] at hrest
          | some y =>
            rw [c2] at hrest
            obtain ⟨hy, _⟩ := hrest
            rw [hy]
        refine ⟨rfl, c, ?_, ?_⟩
        · rw [hsame x (by simp) hxlast, hc]
        · rw [hcx]
          rw [hcx] at hrest
          exact ih (some b) hrest (List.nodup_cons.mp hnd).2 hlast
            (fun hmem2 => hnl (List.mem_cons_of_mem _ hmem2))
            (fun y hy hyl => hsame y (List.mem_cons_of_mem _ hy) hyl)

/-- Heaps agreeing on stored values give the same chain values. -/
theorem chainVals_congr {α} (l : List Nat) (h h2 : Heap α)
    (hsame : ∀ b ∈ l, (readCell h2 b).map Prod.fst = (readCell h b).map Prod.fst) :
    chainVals h2 l = chainVals h l := by
  induction l with
  | nil => rfl
  | cons b l2 ih =>
    simp only [chainVals, List.filterMap_cons]
    have hb := hsame b (by simp)
    cases hc : readCell h b with
    | none =>
      rw [hc] at hb
      cases hc2 : readCell h2 b with
      | none =>
        exact ih (fun x hx => hsame x (List.mem_cons_of_mem _ hx))
      | some c2 => rw [hc2] at hb; simp at hb
    | some c =>
      rw [hc] at hb
      cases hc2 : readCell h2 b with
      | none => rw [hc2] at hb; simp at hb
      | some c2 =>
        rw [hc2] at hb
        have hb2 : c2.1 = c.1 := by simpa using hb
        show c2.1 :: chainVals h2 l2 = c.1 :: chainVals h l2
        rw [hb2, ih (fun x hx => hsame x (List.mem_cons_of_mem _ hx))]

/-- Chain values distribute over list append. -/
theorem chainVals_append {α} (h : Heap α) (l1 l2 : List Nat) :
    chainVals h (l1 ++ l2) = chainVals h l1 ++ chainVals h l2 :=
  List.filterMap_append l1 l2 _

/-- An element written by set is a member of the result. -/
theorem mem_set_self {β : Type} (l : List β) (i : Nat) (a : β) (hi : i < l.length) :
    a ∈ l.set i a :=
  List.getElem?_mem (List.getElem?_set_self hi)

/-- Deferral branch of retire_node: when some hazard slot holds the node's
address, the scan finds it and retire_node returns without freeing. -/
theorem retire_node_defer {α} (s : QState α) (node : Nat)
    (h : some node ∈ s.hp) : retire_node s node = s := by
  have hany : s.hp.any (fun p => p == some node) = true :=
    List.any_eq_true.mpr ⟨some node, h, by simp⟩
  simp [retire_node, hany]

/-- A fresh queue satisfies the structural invariant: the chain is the dummy
node alone and the logical contents are empty. -/
theorem qInit_inv (α : Type) [Inhabited α] : QInv (qInit α) [0] [] := by
  refine ⟨⟨rfl, (default, none), rfl, trivial⟩, by simp, by simp, rfl, rfl, rfl, ?_⟩
  simp [qInit]

/-- Sequential enqueue always succeeds: it allocates the value at the
allocation frontier, links it after the old tail and advances the tail,
extending the chain and the contents by exactly the new node. -/
theorem enqueue_inv {α} (s : QState α) (l : List Nat) (vs : List α) (v : α)
    (h : QInv s l vs) :
    ∃ s2, enqueue s v = some s2 ∧ QInv s2 (l ++ [s.heap.length]) (vs ++ [v]) ∧
      s2.hp = s.hp := by
  obtain ⟨hch, hnd, hne, hhd, htl, hcv, hhp⟩ := h
  obtain ⟨last, hlast⟩ : ∃ last, l.getLast? = some last := by
    cases hl : l.getLast? with
    | none =>
      have hs := List.getLast?_isSome.mpr hne
      rw [hl] at hs
      cases hs
    | some last => exact ⟨last, rfl⟩
  obtain ⟨v0, hv0⟩ := qchain_getLast_none l s.heap s.head hch last hlast
  have hlastlen : last < s.heap.length := readCell_lt_length _ _ _ hv0
  have hmemlt : ∀ b ∈ l, b < s.heap.length := by
    intro b hb
    obtain ⟨c, hc⟩ := qchain_mem_alloc l s.heap s.head hch b hb
    exact readCell_lt_length _ _ _ hc
  have hnl : s.heap.length ∉ l := fun hmem => by
    have := hmemlt _ hmem
    omega
  have hrc : readCell (s.heap ++ [some (v, none)]) last = some (v0, none) := by
    rw [readCell_append_lt _ _ _ hlastlen]
    exact hv0
  have ht : s.tail = some last := by rw [htl, hlast]
  refine ⟨⟨setNext (s.heap ++ [some (v, none)]) last (some s.heap.length),
    s.head, some s.heap.length, s.hp⟩, ?_, ?_, rfl⟩
  · simp [enqueue, enqLoop, ht, hrc]
  · have hlast2 : readCell (setNext (s.heap ++ [some (v, none)]) last
        (some s.heap.length)) last = some (v0, some s.heap.length) :=
      readCell_setNext_self _ _ _ _ hrc
    have ha2 : readCell (setNext (s.heap ++ [some (v, none)]) last
        (some s.heap.length)) s.heap.length = some (v, none) := by
      rw [readCell_setNext_ne _ _ _ _ (by omega)]
      exact readCell_append_self s.heap (some (v, none))
    have hsame : ∀ b ∈ l, b ≠ last →
        readCell (setNext (s.heap ++ [some (v, none)]) last (some s.heap.length)) b =
        readCell s.heap b := by
      intro b hb hbl
      rw [readCell_setNext_ne _ _ _ _ (fun he => hbl he.symm),
        readCell_append_lt _ _ _ (hmemlt b hb)]
    have hfst : ∀ b ∈ l,
        (readCell (setNext (s.heap ++ [some (v, none)]) last (some s.heap.length)) b).map
          Prod.fst = (readCell s.heap b).map Prod.fst := by
      intro b hb
      by_cases hbl : b = last
      · subst hbl
        rw [hlast2, hv0]
        rfl
      · rw [hsame b hb hbl]
    cases l with
    | nil => exact absurd rfl hne
    | cons x l2 =>
      refine ⟨?_, ?_, by simp, ?_, ?_, ?_, hhp⟩
      · exact qchain_snoc s.heap _ s.heap.length last ⟨v0, hlast2⟩ ⟨v, ha2⟩
          (x :: l2) s.head hch hnd hlast hnl hsame
      · exact List.nodup_append.mpr ⟨hnd, List.nodup_singleton _,
          List.disjoint_singleton.mpr hnl⟩
      · rw [List.cons_append, List.head?_cons]
        simpa using hhd
      · rw [List.getLast?_concat]
      · show chainVals _ ((x :: l2 ++ [s.heap.length]).tail) = vs ++ [v]
        rw [List.cons_append]
        show chainVals _ (l2 ++ [s.heap.length]) = vs ++ [v]
        rw [chainVals_append]
        have h1 : chainVals (setNext (s.heap ++ [some (v, none)]) last
            (some s.heap.length)) l2 = vs := by
          rw [chainVals_congr l2 s.heap _
            (fun b hb => hfst b (List.mem_cons_of_mem _ hb))]
          simpa using hcv
        have h2 : chainVals (setNext (s.heap ++ [some (v, none)]) last
            (some s.heap.length)) [s.heap.length] = [v] := by
          simp [chainVals, List.filterMap_cons, ha2]
        rw [h1, h2]

/-- Sequential dequeue on a structurally empty queue returns the Empty
result at once and changes only the caller's hazard slot. -/
theorem dequeue_empty_inv {α} (s : QState α) (d : Nat) (tid : Nat)
    (h : QInv s [d] []) :
    dequeue s tid =
      some ((false, none), ⟨s.heap, s.head, s.tail, s.hp.set tid (some d)⟩) ∧
    QInv ⟨s.heap, s.head, s.tail, s.hp.set tid (some d)⟩ [d] [] := by
  obtain ⟨hch, hnd, hne, hhd, htl, hcv, hhp⟩ := h
  have hd : s.head = some d := by simpa using hhd
  have ht : s.tail = some d := by simpa using htl
  rw [hd] at hch
  obtain ⟨-, ⟨cv, cn⟩, hc, hrest⟩ := hch
  cases cn with
  | some y => simp [qchain] at hrest
  | none =>
    constructor
    · simp [dequeue, deqLoop, hd, hc, ht]
    · exact ⟨by rw [hd]; exact ⟨rfl, (cv, none), hc, hrest⟩, hnd, hne, hhd, htl, hcv,
        by rw [List.length_set]; exact hhp⟩

/-- Sequential dequeue on a structurally non-empty queue succeeds: it
returns the value of the node after the dummy, advances head past the old
dummy, publishes the old dummy in the caller's hazard slot, and (the slot
still holding the address) the retire scan defers, leaving the heap
unchanged. -/
theorem dequeue_cons_inv {α} (s : QState α) (d b : Nat) (l2 : List Nat) (vs : List α)
    (tid : Nat) (htid : tid < MAX_THREADS)
    (h : QInv s (d :: b :: l2) vs) :
    ∃ v vs2, vs = v :: vs2 ∧
    dequeue s tid =
      some ((true, some v), ⟨s.heap, some b, s.tail, s.hp.set tid (some d)⟩) ∧
    QInv ⟨s.heap, some b, s.tail, s.hp.set tid (some d)⟩ (b :: l2) vs2 := by
  obtain ⟨hch, hnd, hne2, hhd, htl, hcv, hhp⟩ := h
  have hd : s.head = some d := by simpa using hhd
  rw [hd] at hch
  obtain ⟨-, ⟨cv, cn⟩, hc, hrest⟩ := hch
  have hcn : cn = some b := by
    cases cn with
    | none => simp [qchain] at hrest
    | some y =>
      obtain ⟨hy, -⟩ := hrest
      rw [hy]
  subst hcn
  have hrest2 : qchain s.heap (some b) (b :: l2) := hrest
  obtain ⟨⟨bv, bn⟩, hcb⟩ := qchain_mem_alloc (b :: l2) s.heap (some b) hrest2 b (by simp)
  obtain ⟨last, hgl, hlmem⟩ :
      ∃ last, (b :: l2).getLast? = some last ∧ last ∈ b :: l2 := by
    cases hgl : (b :: l2).getLast? with
    | none =>
      have hs := List.getLast?_isSome.mpr (by simp : (b :: l2) ≠ [])
      rw [hgl] at hs
      cases hs
    | some last => exact ⟨last, rfl, List.mem_of_getLast?_eq_some hgl⟩
  have htl2 : s.tail = some last := by rw [htl, List.getLast?_cons_cons]; exact hgl
  have hdne : d ≠ last := fun he => (List.nodup_cons.mp hnd).1 (he ▸ hlmem)
  have hcond : ¬ (s.tail = some d) := by
    rw [htl2]
    intro he
    exact hdne (Option.some.inj he).symm
  have hhazard : some d ∈ s.hp.set tid (some d) :=
    mem_set_self s.hp tid (some d) (by rw [hhp]; exact htid)
  have hretire : retire_node ⟨s.heap, some b, s.tail, s.hp.set tid (some d)⟩ d =
      ⟨s.heap, some b, s.tail, s.hp.set tid (some d)⟩ :=
    retire_node_defer _ _ hhazard
  refine ⟨bv, chainVals s.heap l2, ?_, ?_, ?_⟩
  · rw [← hcv]
    show chainVals s.heap (b :: l2) = bv :: chainVals s.heap l2
    simp [chainVals, List.filterMap_cons, hcb]
  · simp [dequeue, deqLoop, hd, hc, hcb, hcond, hretire]
  · refine ⟨hrest2, (List.nodup_cons.mp hnd).2, by simp, rfl, ?_, rfl, ?_⟩
    · rw [htl, List.getLast?_cons_cons]
    · rw [List.length_set]
      exact hhp

/-- The enqueue loop only links the new node after some existing node and
advances the tail: head and hazard table are untouched. -/
theorem enqLoop_frame {α} (fuel : Nat) : ∀ (s : QState α) (a : Nat) (s2 : QState α),
    enqLoop fuel s a = some s2 →
    s2.hp = s.hp ∧ s2.head = s.head ∧ ∃ last, s2.heap = setNext s.heap last (some a) := by
  induction fuel with
  | zero => intro s a s2 h; exact Option.noConfusion h
  | succ fuel ih =>
    intro s a s2 h
    simp only [enqLoop] at h
    split at h
    · exact Option.noConfusion h
    · rename_i last htail
      split at h
      · exact Option.noConfusion h
      · rename_i c hrc
        split at h
        · obtain rfl := Option.some.inj h
          exact ⟨rfl, rfl, last, rfl⟩
        · rename_i n hc2
          obtain ⟨h1, h2, last2, h3⟩ := ih _ _ _ h
          exact ⟨h1, h2, last2, h3⟩

/-- The dequeue loop never frees a node: whatever path it takes, the final
heap is the starting heap (the retire scan always finds the caller's own
hazard slot, freshly set to the node being retired, and defers), and the
hazard table keeps its size. -/
theorem deqLoop_frame {α} (fuel : Nat) : ∀ (s : QState α) (tid : Nat)
    (r : Bool × Option α) (s2 : QState α), tid < s.hp.length →
    deqLoop fuel s tid = some (r, s2) →
    s2.heap = s.heap ∧ s2.hp.length = s.hp.length := by
  induction fuel with
  | zero => intro s tid r s2 _ h; exact Option.noConfusion h
  | succ fuel ih =>
    intro s tid r s2 htid h
    simp only [deqLoop] at h
    split at h
    · exact Option.noConfusion h
    · rename_i first hfirst
      split at h
      · exact Option.noConfusion h
      · rename_i c hrc
        have hhaz : some first ∈ s.hp.set tid (some first) :=
          mem_set_self s.hp tid (some first) htid
        split at h
        · split at h
          · simp only [Option.some.injEq, Prod.mk.injEq] at h
            obtain ⟨-, rfl⟩ := h
            exact ⟨rfl, List.length_set _ _ _⟩
          · rename_i n hc2
            have hrec := ih ⟨s.heap, s.head, some n, s.hp.set tid (some first)⟩ tid r s2
              (by show tid < (s.hp.set tid (some first)).length
                  rw [List.length_set]
                  exact htid) h
            exact ⟨hrec.1, hrec.2.trans (List.length_set _ _ _)⟩
        · split at h
          · rw [retire_node_defer ⟨s.heap, none, s.tail, s.hp.set tid (some first)⟩
              first hhaz] at h
            simp only [Option.some.injEq, Prod.mk.injEq] at h
            obtain ⟨-, rfl⟩ := h
            exact ⟨rfl, List.length_set _ _ _⟩
          · rename_i n hc2
            split at h
            · exact Option.noConfusion h
            · rename_i d hd
              rw [retire_node_defer ⟨s.heap, some n, s.tail, s.hp.set tid (some first)⟩
                first hhaz] at h
              simp only [Option.some.injEq, Prod.mk.injEq] at h
              obtain ⟨-, rfl⟩ := h
              exact ⟨rfl, List.length_set _ _ _⟩

/-- Allocating a fresh node keeps all cells allocated. -/
theorem allAlloc_append {α} (h : Heap α) (v : α) (ha : AllAlloc h) :
    AllAlloc (h ++ [some (v, none)]) := by
  intro a halen
  rw [List.length_append] at halen
  by_cases hlt : a < h.length
  · rw [getD_append_lt _ _ _ _ hlt]
    exact ha a hlt
  · have haeq : a = h.length := by simp at halen; omega
    subst haeq
    rw [show List.getD (h ++ [some (v, none)]) h.length none = some (v, none) from
      readCell_append_self h _]
    simp

/-- Writing a next field keeps all cells allocated. -/
theorem allAlloc_setNext {α} (h : Heap α) (a : Nat) (nx : Option Nat)
    (ha : AllAlloc h) : AllAlloc (setNext h a nx) := by
  intro b hb
  rw [length_setNext] at hb
  by_cases hab : a = b
  · subst hab
    cases hc : readCell h a with
    | none => exact absurd hc (ha a hb)
    | some c =>
      rw [show List.getD (setNext h a nx) a none = some (c.1, nx) from
        readCell_setNext_self h a c nx hc]
      simp
  · rw [show List.getD (setNext h a nx) b none = List.getD h b none from
      readCell_setNext_ne h a b nx hab]
    exact ha b hb

/-- No run of queue operations ever frees a heap cell: every node that was
ever allocated is still allocated in the final state. -/
theorem runQ_no_free {α} [Inhabited α] (ops : List (QOp α)) : ∀ (s s2 : QState α),
    AllAlloc s.heap → s.hp.length = MAX_THREADS → runQ s ops = some s2 →
    AllAlloc s2.heap ∧ s2.hp.length = MAX_THREADS := by
  induction ops with
  | nil =>
    intro s s2 h1 h2 hr
    simp only [runQ] at hr
    obtain rfl := Option.some.inj hr
    exact ⟨h1, h2⟩
  | cons op ops ih =>
    intro s s2 h1 h2 hr
    cases op with
    | enq v =>
      simp only [runQ] at hr
      split at hr
      · exact Option.noConfusion hr
      · rename_i s1 henq
        obtain ⟨hhp1, hhd1, last, hheap1⟩ :=
          enqLoop_frame (s.heap.length + 1)
            ⟨s.heap ++ [some (v, none)], s.head, s.tail, s.hp⟩ s.heap.length s1 henq
        have h1A : AllAlloc s1.heap := by
          rw [hheap1]
          exact allAlloc_setNext _ _ _ (allAlloc_append _ _ h1)
        exact ih s1 s2 h1A (by rw [hhp1]; exact h2) hr
    | deq tid =>
      simp only [runQ] at hr
      split at hr
      · rename_i htid
        split at hr
        · exact Option.noConfusion hr
        · rename_i p hdq
          obtain ⟨r1, s1⟩ := p
          have hfr := deqLoop_frame (s.heap.length + 1) s tid r1 s1
            (by rw [h2]; exact htid) hdq
          exact ih s1 s2 (by rw [hfr.1]; exact h1) (by rw [hfr.2]; exact h2) hr
      · exact Option.noConfusion hr

/-- Any run of queue operations from a fresh queue reaches a state still
satisfying the structural invariant for some chain and contents. -/
theorem runQ_inv {α} [Inhabited α] (ops : List (QOp α)) : ∀ (s s2 : QState α)
    (l : List Nat) (vs : List α), QInv s l vs → runQ s ops = some s2 →
    ∃ l2 vs2, QInv s2 l2 vs2 := by
  induction ops with
  | nil =>
    intro s s2 l vs h hr
    simp only [runQ] at hr
    obtain rfl := Option.some.inj hr
    exact ⟨l, vs, h⟩
  | cons op ops ih =>
    intro s s2 l vs h hr
    cases op with
    | enq v =>
      simp only [runQ] at hr
      split at hr
      · exact Option.noConfusion hr
      · rename_i s1 henq
        obtain ⟨s1', henq', hinv', -⟩ := enqueue_inv s l vs v h
        rw [henq'] at henq
        obtain rfl := Option.some.inj henq
        exact ih _ s2 _ _ hinv' hr
    | deq tid =>
      simp only [runQ] at hr
      split at hr
      · rename_i htid
        split at hr
        · exact Option.noConfusion hr
        · rename_i p hdq
          cases l with
          | nil => exact absurd rfl h.2.2.1
          | cons d l1 =>
            cases l1 with
            | nil =>
              have hvs : vs = [] := by
                have hcv := h.2.2.2.2.2.1
                simpa [chainVals] using hcv.symm
              subst hvs
              obtain ⟨hdq', hinv'⟩ := dequeue_empty_inv s d tid h
              rw [hdq'] at hdq
              obtain rfl := Option.some.inj hdq
              exact ih _ s2 _ _ hinv' hr
            | cons b l2 =>
              obtain ⟨v, vs2, hvs, hdq', hinv'⟩ := dequeue_cons_inv s d b l2 vs tid htid h
              rw [hdq'] at hdq
              obtain rfl := Option.some.inj hdq
              exact ih _ s2 _ _ hinv' hr
      · exact Option.noConfusion hr

/-- A queue with empty logical contents has exactly the dummy in its chain. -/
theorem QInv_nil_shape {α} (s : QState α) (l : List Nat) (h : QInv s l []) :
    ∃ d, l = [d] := by
  obtain ⟨hch, hnd, hne, hhd, htl, hcv, hhp⟩ := h
  cases l with
  | nil => exact absurd rfl hne
  | cons d l1 =>
    cases l1 with
    | nil => exact ⟨d, rfl⟩
    | cons b l2 =>
      have hd : s.head = some d := by simpa using hhd
      rw [hd] at hch
      obtain ⟨-, ⟨cv, cn⟩, hc, hrest⟩ := hch
      have hcn : cn = some b := by
        cases cn with
        | none => simp [qchain] at hrest
        | some y =>
          obtain ⟨hy, -⟩ := hrest
          rw [hy]
      subst hcn
      obtain ⟨cb, hcb⟩ := qchain_mem_alloc (b :: l2) s.heap (some b) hrest b (by simp)
      rw [show chainVals s.heap (d :: b :: l2).tail = cb.1 :: chainVals s.heap l2 from
        by simp [chainVals, List.filterMap_cons, hcb]] at hcv
      cases hcv

/-- Enqueuing a whole list from a fresh-style state appends it to the
contents. -/
theorem enqList_inv {α} [Inhabited α] (vs : List α) : ∀ (s : QState α) (l : List Nat)
    (cs : List α), QInv s l cs →
    ∃ s2 l2, enqList s vs = some s2 ∧ QInv s2 l2 (cs ++ vs) := by
  induction vs with
  | nil =>
    intro s l cs h
    exact ⟨s, l, rfl, by simpa using h⟩
  | cons v vs ih =>
    intro s l cs h
    obtain ⟨s1, henq, hinv1, -⟩ := enqueue_inv s l cs v h
    obtain ⟨s2, l2, hrest, hinv2⟩ := ih s1 _ _ hinv1
    refine ⟨s2, l2, ?_, ?_⟩
    · simp only [enqList, henq]
      exact hrest
    · rw [List.append_assoc] at hinv2
      exact hinv2

/-- Unfolding equation for deqN on a successful dequeue. -/
theorem deqN_succ {α} (s : QState α) (k : Nat) (r : (Bool × Option α) × QState α)
    (h : dequeue s 0 = some r) (out : List (Bool × Option α)) (s3 : QState α)
    (h2 : deqN r.2 k = some (out, s3)) : deqN s (k+1) = some (r.1 :: out, s3) := by
  simp only [deqN, h, h2]

/-- Dequeuing contents-length-plus-one times yields each value in order and
then the Empty result. -/
theorem deqN_spec {α} [Inhabited α] (cs : List α) : ∀ (s : QState α) (l : List Nat),
    QInv s l cs →
    ∃ s2, deqN s (cs.length + 1) =
      some (cs.map (fun v => (true, some v)) ++ [(false, none)], s2) := by
  induction cs with
  | nil =>
    intro s l h
    obtain ⟨d, rfl⟩ := QInv_nil_shape s l h
    obtain ⟨hdq, -⟩ := dequeue_empty_inv s d 0 h
    refine ⟨⟨s.heap, s.head, s.tail, s.hp.set 0 (some d)⟩, ?_⟩
    simp [deqN, hdq]
  | cons v cs ih =>
    intro s l h
    obtain ⟨d, b, l2, rfl⟩ : ∃ d b l2, l = d :: b :: l2 := by
      cases l with
      | nil => exact absurd rfl h.2.2.1
      | cons d l1 =>
        cases l1 with
        | nil =>
          have hcv := h.2.2.2.2.2.1
          simp [chainVals] at hcv
        | cons b l2 => exact ⟨d, b, l2, rfl⟩
    obtain ⟨v1, vs2, hvs, hdq, hinv⟩ :=
      dequeue_cons_inv s d b l2 (v :: cs) 0 (by decide) h
    have hv1 : v = v1 := (List.cons.inj hvs).1
    have hvs2 : cs = vs2 := (List.cons.inj hvs).2
    subst hv1
    subst hvs2
    obtain ⟨s3, hrest⟩ := ih _ _ hinv
    exact ⟨s3, deqN_succ s (cs.length + 1)
      ((true, some v), ⟨s.heap, some b, s.tail, s.hp.set 0 (some d)⟩) hdq _ s3 hrest⟩

/-! ## Claim C2 -/

/-- C2: the queue is FIFO for a single producer and single consumer — for
every list of values vs enqueued in order into a fresh queue, vs.length + 1
dequeues return exactly the values of vs in order, each with the success
result, followed by one Empty result (so in particular enqueuing 1, 2, 3
dequeues 1, then 2, then 3, then Empty). -/
theorem queue_fifo {α} [Inhabited α] (vs : List α) :
    runFifo vs = some (vs.map (fun v => (true, some v)) ++ [(false, none)]) := by
  obtain ⟨s2, l2, henq, hinv⟩ := enqList_inv vs (qInit α) [0] [] (qInit_inv α)
  obtain ⟨s3, hdeq⟩ := deqN_spec vs s2 l2 (by simpa using hinv)
  simp only [runFifo, henq, hdeq]
  rfl

/-! ## Claim C4 -/

/-- C4 at the code level: no queue node is ever physically freed in any
run — after any sequence of enqueues and dequeues from a fresh queue, every
cell ever allocated is still allocated.  In particular a node removed by a
successful dequeue whose free was deferred is never retried and never
freed: retire_node drops it, and the claim that it is eventually freed
fails. -/
theorem dequeued_nodes_never_freed {α} [Inhabited α] (ops : List (QOp α))
    (s2 : QState α) (a : Nat) (h : runQ (qInit α) ops = some s2)
    (ha : a < s2.heap.length) : readCell s2.heap a ≠ none := by
  have h0 : AllAlloc (qInit α).heap := by
    intro b hb
    have hb0 : b = 0 := by
      simp [qInit] at hb
      omega
    subst hb0
    simp [qInit]
  have h1 : (qInit α).hp.length = MAX_THREADS := by simp [qInit]
  exact (runQ_no_free ops (qInit α) s2 h0 h1 h).1 a ha

/-- Witness for the C4 theorem: enqueue 5 then dequeue it; the removed
dummy node (address 0) is hazarded by the dequeuing thread's own slot, its
free is deferred, and it remains allocated in the final state. -/
theorem dequeued_nodes_never_freed_w :
    runQ (qInit Nat) [QOp.enq 5, QOp.deq 0] =
      some ⟨[some (0, some 1), some (5, none)], some 1, some 1,
        (List.replicate MAX_THREADS (none : Option Nat)).set 0 (some 0)⟩ ∧
    0 < (⟨[some (0, some 1), some (5, none)], some 1, some 1,
        (List.replicate MAX_THREADS (none : Option Nat)).set 0 (some 0)⟩ :
        QState Nat).heap.length ∧
    readCell (⟨[some (0, some 1), some (5, none)], some 1, some 1,
        (List.replicate MAX_THREADS (none : Option Nat)).set 0 (some 0)⟩ :
        QState Nat).heap 0 ≠ none :=
  ⟨by decide, by decide,
   dequeued_nodes_never_freed [QOp.enq 5, QOp.deq 0] _ 0 (by decide) (by decide)⟩

/-! ## Claim C6 -/

/-- C6: emptiness and exhaustion are explicit result variants, not blocking
and not exceptions — acquire on a pool with a null free-list head returns
the null handle with the pool unchanged, and dequeue on a structurally
empty queue (head equals tail and the head node's next is null) returns
the Empty result immediately.  Both embedded operations are total
functions into plain result types: no exceptional outcome exists on these
paths (contrast allocate, whose exhaustion is an Except.error). -/
theorem empty_exhausted_explicit {α} (p : PoolState) (q : QState α) (tid : Nat)
    (hp1 : p.head = none) (hq1 : q.head = q.tail)
    (hq2 : ∃ a v, q.head = some a ∧ readCell q.heap a = some (v, none)) :
    acquire p = (none, p) ∧
    ∃ s3, dequeue q tid = some ((false, none), s3) := by
  obtain ⟨a, v, hha, hrc⟩ := hq2
  constructor
  · simp [acquire, hp1]
  · refine ⟨⟨q.heap, q.head, q.tail, q.hp.set tid (some a)⟩, ?_⟩
    have ht : q.tail = some a := by rw [← hq1, hha]
    simp [dequeue, deqLoop, hha, hrc, ht]

/-- Witness for the C6 theorem: the empty pool and a fresh queue. -/
theorem empty_exhausted_explicit_w :
    (⟨[], none⟩ : PoolState).head = none ∧
    (qInit Nat).head = (qInit Nat).tail ∧
    (∃ a v, (qInit Nat).head = some a ∧
      readCell (qInit Nat).heap a = some (v, none)) ∧
    (acquire ⟨[], none⟩ = (none, ⟨[], none⟩) ∧
      ∃ s3, dequeue (qInit Nat) 0 = some ((false, none), s3)) :=
  ⟨rfl, rfl, ⟨0, 0, rfl, rfl⟩,
   empty_exhausted_explicit ⟨[], none⟩ (qInit Nat) 0 rfl rfl ⟨0, 0, rfl, rfl⟩⟩

/-! ## Claim C9 -/

/-- C9: after any run of operations from a fresh queue, head points at an
allocated node (the dummy is always reachable), tail is non-null, and a
dequeue by any valid thread reports Empty exactly when head equals tail and
the head node's next link is null — emptiness is decided structurally, no
element counter exists in the state. -/
theorem queue_structural {α} [Inhabited α] (ops : List (QOp α)) (s2 : QState α)
    (h : runQ (qInit α) ops = some s2) :
    (∃ a c, s2.head = some a ∧ readCell s2.heap a = some c) ∧
    s2.tail ≠ none ∧
    (∀ tid, tid < MAX_THREADS →
      ((∃ s3, dequeue s2 tid = some ((false, none), s3)) ↔
        (s2.head = s2.tail ∧
          ∃ a v, s2.head = some a ∧ readCell s2.heap a = some (v, none)))) := by
  obtain ⟨l, vs, hinv⟩ := runQ_inv ops (qInit α) s2 [0] [] (qInit_inv α) h
  obtain ⟨hch, hnd, hne, hhd, htl, hcv, hhp⟩ := hinv
  cases l with
  | nil => exact absurd rfl hne
  | cons d l1 =>
    have hd : s2.head = some d := by simpa using hhd
    rw [hd] at hch
    obtain ⟨-, ⟨cv, cn⟩, hc, hrest⟩ := hch
    refine ⟨⟨d, (cv, cn), hd, hc⟩, ?_, ?_⟩
    · cases hgl : (d :: l1).getLast? with
      | none =>
        have hs := List.getLast?_isSome.mpr (by simp : (d :: l1) ≠ [])
        rw [hgl] at hs
        cases hs
      | some last =>
        rw [htl, hgl]
        simp
    · intro tid htid
      cases l1 with
      | nil =>
        have hcn : cn = none := by
          cases cn with
          | none => rfl
          | some y => simp [qchain] at hrest
        subst hcn
        have hvs : vs = [] := by simpa [chainVals] using hcv.symm
        subst hvs
        obtain ⟨hdq, -⟩ :=
          dequeue_empty_inv s2 d tid ⟨by rw [hd]; exact ⟨rfl, (cv, none), hc, hrest⟩,
            hnd, hne, hhd, htl, hcv, hhp⟩
        constructor
        · intro _
          have ht2 : s2.tail = some d := by simpa using htl
          exact ⟨by rw [hd, ht2], d, cv, hd, hc⟩
        · intro _
          exact ⟨⟨s2.heap, s2.head, s2.tail, s2.hp.set tid (some d)⟩, hdq⟩
      | cons b l2 =>
        have hcn : cn = some b := by
          cases cn with
          | none => simp [qchain] at hrest
          | some y =>
            obtain ⟨hy, -⟩ := hrest
            rw [hy]
        subst hcn
        obtain ⟨v, vs2, hvs, hdq, -⟩ :=
          dequeue_cons_inv s2 d b l2 vs tid htid
            ⟨by rw [hd]; exact ⟨rfl, (cv, some b), hc, hrest⟩,
              hnd, hne, hhd, htl, hcv, hhp⟩
        constructor
        · intro hfalse
          obtain ⟨s3, hs3⟩ := hfalse
          rw [hdq] at hs3
          simp at hs3
        · intro hstruct
          obtain ⟨-, a, v1, hha, hrc⟩ := hstruct
          rw [hd] at hha
          obtain rfl := Option.some.inj hha
          rw [hc] at hrc
          obtain hpair := Option.some.inj hrc
          have : some b = (none : Option Nat) := congrArg Prod.snd hpair
          cases this

/-- Witness for the C9 theorem: after a single enqueue of 7, head points at
the allocated dummy, tail is non-null, and the emptiness equivalence holds. -/
theorem queue_structural_w :
    runQ (qInit Nat) [QOp.enq 7] =
      some ⟨[some (0, some 1), some (7, none)], some 0, some 1,
        List.replicate MAX_THREADS none⟩ ∧
    ((∃ a c, (⟨[some (0, some 1), some (7, none)], some 0, some 1,
        List.replicate MAX_THREADS none⟩ : QState Nat).head = some a ∧
        readCell (⟨[some (0, some 1), some (7, none)], some 0, some 1,
          List.replicate MAX_THREADS none⟩ : QState Nat).heap a = some c) ∧
      (⟨[some (0, some 1), some (7, none)], some 0, some 1,
        List.replicate MAX_THREADS none⟩ : QState Nat).tail ≠ none ∧
      (∀ tid, tid < MAX_THREADS →
        ((∃ s3, dequeue (⟨[some (0, some 1), some (7, none)], some 0, some 1,
            List.replicate MAX_THREADS none⟩ : QState Nat) tid =
            some ((false, none), s3)) ↔
          ((⟨[some (0, some 1), some (7, none)], some 0, some 1,
            List.replicate MAX_THREADS none⟩ : QState Nat).head =
            (⟨[some (0, some 1), some (7, none)], some 0, some 1,
              List.replicate MAX_THREADS none⟩ : QState Nat).tail ∧
            ∃ a v, (⟨[some (0, some 1), some (7, none)], some 0, some 1,
              List.replicate MAX_THREADS none⟩ : QState Nat).head = some a ∧
              readCell (⟨[some (0, some 1), some (7, none)], some 0, some 1,
                List.replicate MAX_THREADS none⟩ : QState Nat).heap a =
                some (v, none))))) :=
  ⟨by decide, queue_structural [QOp.enq 7] _ (by decide)⟩

end Playfield

